import Mathlib

/-!
Verification of the core search pipeline of `PirateUserSearcherCLI.py`:
query aggregation, username filtering, deduplication, liveness checking
with retry, sorting, and display-time enrichment.

The embedding models each stage of the `search` / `sorter` / `printer`
functions as a pure Lean function.  Network effects are passed in as
function-valued parameters: a query fetch is `String → Option (List Record)`
(`none` models the uncaught `requests` or JSON exception), one liveness
attempt is an `Attempt` outcome, and the enrichment fetch is
`String → Option String`.
-/

namespace PirateSearch

/-- One torrent listing flowing through the pipeline, as produced by the
JSON rows of the search endpoint after the numeric normalisation in
`search` (lines 133-136 convert `added`, `seeders`, `size` to integers).
`code` is the HTTP status attached by the liveness check (line 98); it is
`none` until a liveness attempt succeeds, since the search endpoint rows
carry no such key. -/
structure Record where
  id : String
  name : String
  username : String
  status : String
  size : Int
  added : Int
  seeders : Int
  info_hash : String
  code : Option Nat := none
  deriving DecidableEq

/-- Constant `MAX_RESULTS_WITH_LINKS` (line 35): cap on the records that
receive display-time enrichment. -/
def MAX_RESULTS_WITH_LINKS : Nat := 100

/-- The inner username filter of `search` (line 125): the records of one
term response whose `username` equals one supplied identity, one block per
identity, in identity order (lines 124-126). -/
def userBlocks (data : List Record) (usernames : List String) : List (List Record) :=
  usernames.map (fun u => data.filter (fun r => r.username == u))

/-- The accumulation loop of `search` (lines 117-126) building
`combined_data_list`: for each term fetch the remote response, then append
one filtered block per username.  `fetch t = none` models the uncaught
`requests.get` / `response.json()` exception for that term, which aborts
the whole loop (there is no try/except around lines 120-121). -/
def combinedDataList (fetch : String → Option (List Record))
    (usernames : List String) : List String → Option (List (List Record))
  | [] => some []
  | t :: ts =>
    match fetch t with
    | none => none
    | some data =>
      (combinedDataList fetch usernames ts).map
        (fun rest => userBlocks data usernames ++ rest)

/-- Lines 129-130 of `search`: drop the empty per-(term, username) blocks
and flatten with `chain`, yielding `dict_list`.  The numeric conversion of
lines 133-136 is the identity here because `Record` already holds
integers. -/
def dictList (fetch : String → Option (List Record))
    (usernames terms : List String) : Option (List Record) :=
  (combinedDataList fetch usernames terms).map
    (fun blocks => (blocks.filter (fun b => !b.isEmpty)).flatten)

/-- The duplicate-removal loop of `search` (lines 139-140): walk the list,
appending each item that is not already present in the output built so
far.  `acc` is the `unique_list` accumulated before the remaining items
are scanned. -/
def dedupLoop {α : Type} [DecidableEq α] (acc : List α) : List α → List α
  | [] => acc
  | x :: xs => if x ∈ acc then dedupLoop acc xs else dedupLoop (acc ++ [x]) xs

/-- `unique_list` as built at lines 139-140: first-occurrence
deduplication with structural equality. -/
def pythonDedup {α : Type} [DecidableEq α] (l : List α) : List α :=
  dedupLoop [] l

/-- The deduplicated working list entering the liveness check: lines
115-140 of `search` composed (aggregate, flatten, dedup); `none` when the
query phase aborted. -/
def uniqueListOf (fetch : String → Option (List Record))
    (usernames terms : List String) : Option (List Record) :=
  (dictList fetch usernames terms).map pythonDedup

/-- The URL requested by one liveness probe, from `get_tasks` line 78:
the f-string is built as `PIRATE_URL`, then `/torrent/`, then the id,
then a newline character. -/
def probeUrl (pirateUrl : String) (tid : String) : String :=
  pirateUrl ++ "/torrent/" ++ tid ++ "\n"

/-- Modelled from the spec (section 6): the exact probe path the remote
service expects, `<site-url>/torrent/<id>` with nothing appended.  Written
from the words of the spec for comparison with `probeUrl`. -/
def specProbeUrl (pirateUrl : String) (tid : String) : String :=
  pirateUrl ++ "/torrent/" ++ tid

/-- A successful `check_urls` run (lines 92-100): `asyncio.gather` returns
the responses in task order, i.e. positionally, and the loop at lines
97-98 writes `codes[idx]` into record `idx`.  `codes` is the gathered
status list, one entry per record, in record order, independent of the
completion order of the concurrent probes. -/
def setCodes (l : List Record) (codes : List Nat) : List Record :=
  l.zipWith (fun r c => { r with code := some c }) codes

/-- The outcome the environment gives one whole-batch liveness attempt:
either every probe resolves to a status (`ok codes`, positional), or some
transport failure raises and is caught by the bare `except` at line 158
before any `code` field is written. -/
inductive Attempt where
  | ok (codes : List Nat)
  | fail
  deriving DecidableEq

/-- What the liveness phase hands to `sorter`: the 404-filtered list on
success (line 155), or the untouched pre-verification list after the
retries are exhausted (line 163). -/
inductive LivenessResult where
  | filtered (l : List Record)
  | unfiltered (l : List Record)
  deriving DecidableEq

/-- The retry loop of `search` (lines 145-164).  `counter` starts at 0;
a successful attempt filters out `code == 404` records and stops; a failed
attempt increments the counter and, once it exceeds 3, abandons
verification and hands `sorter` the unfiltered list.  The result is
`none` only if the supplied outcome trace is too short to settle the
loop. -/
def livenessLoop (uniqueList : List Record) :
    Nat → List Attempt → Option LivenessResult
  | _, [] => none
  | _, Attempt.ok codes :: _ =>
    some (LivenessResult.filtered
      ((setCodes uniqueList codes).filter (fun r => r.code != some 404)))
  | counter, Attempt.fail :: rest =>
    if counter + 1 > 3 then some (LivenessResult.unfiltered uniqueList)
    else livenessLoop uniqueList (counter + 1) rest

/-- The liveness phase applied to the deduplicated list, starting with
`counter = 0` (line 145). -/
def livenessPhase (uniqueList : List Record) (attempts : List Attempt) :
    Option LivenessResult :=
  livenessLoop uniqueList 0 attempts

/-- Stable insertion used to model the Python built-in `sorted`: the new
element `a` is placed after exactly those existing elements `b` with
`lt b a`, so elements comparing equal keep their relative order. -/
def insSorted {α : Type} (lt : α → α → Bool) (a : α) : List α → List α
  | [] => [a]
  | b :: l => if lt b a then b :: insSorted lt a l else a :: b :: l

/-- Stable sort by the strict comparison `lt` (`lt b a` meaning `b` must
come strictly before `a`).  Python `sorted` is a stable sort, and a stable
sort is determined up to extensional equality by its comparison, so this
insertion sort is an exact model of the `sorted(...)` calls of `sorter`. -/
def stableSortBy {α : Type} (lt : α → α → Bool) (l : List α) : List α :=
  l.foldr (insSorted lt) []

/-- `sorted(item_list, key=lambda x: x["added"], reverse=True)`, `sorter`
line 195: newest first, stable descending on `added`. -/
def sortNewest (l : List Record) : List Record :=
  stableSortBy (fun b a => decide (a.added < b.added)) l

/-- `sorted(item_list, key=lambda x: x["added"])`, `sorter` line 199:
oldest first, stable ascending on `added`. -/
def sortOldest (l : List Record) : List Record :=
  stableSortBy (fun b a => decide (b.added < a.added)) l

/-- `sorted(item_list, key=lambda x: x["seeders"], reverse=True)`,
`sorter` line 203: stable descending on `seeders`. -/
def sortMostSeeded (l : List Record) : List Record :=
  stableSortBy (fun b a => decide (a.seeders < b.seeders)) l

/-- `sorted(item_list, key=lambda x: x["size"], reverse=True)`, `sorter`
line 207: stable descending on `size`. -/
def sortLargest (l : List Record) : List Record :=
  stableSortBy (fun b a => decide (a.size < b.size)) l

/-- `sorted(item_list, key=lambda x: x["size"])`, `sorter` line 211:
stable ascending on `size`. -/
def sortSmallest (l : List Record) : List Record :=
  stableSortBy (fun b a => decide (b.size < a.size)) l

/-- Line 257 of `printer`: the membership test `"http" in line`; a string
contains the substring exactly when splitting on it yields at least two
pieces. -/
def containsHttp (line : String) : Bool :=
  2 ≤ (line.splitOn "http").length

/-- Lines 255-258 of `printer`: the lines of the description that contain
`http`. -/
def relevantLinks (descr : String) : List String :=
  (descr.splitOn "\n").filter containsHttp

/-- The display loop of `printer` (lines 237-259).  `enrich` models
`requests.get(".../t.php?id=...").json()["descr"]` for a record id:
`none` is the uncaught network or JSON exception at lines 252-254.  For
each record before index `MAX_RESULTS_WITH_LINKS` the enrichment is
fetched and its links displayed; a failure there raises and propagates,
aborting the remaining iterations, which `Except.error` records.  The
value pairs each displayed record with its enrichment links (`none` past
the cap, where no fetch happens). -/
def displayLoop (enrich : String → Option String) :
    Nat → List Record → Except Unit (List (Record × Option (List String)))
  | _, [] => Except.ok []
  | idx, r :: rs =>
    if idx < MAX_RESULTS_WITH_LINKS then
      match enrich r.id with
      | none => Except.error ()
      | some descr =>
        match displayLoop enrich (idx + 1) rs with
        | Except.error e => Except.error e
        | Except.ok rest => Except.ok ((r, some (relevantLinks descr)) :: rest)
    else
      match displayLoop enrich (idx + 1) rs with
      | Except.error e => Except.error e
      | Except.ok rest => Except.ok ((r, none) :: rest)

/-- `printer` applied to the sorted results, starting at index 0
(line 237). -/
def printerDisplay (enrich : String → Option String) (results : List Record) :
    Except Unit (List (Record × Option (List String))) :=
  displayLoop enrich 0 results

/-- Modelled from the spec (sections 4.1 and 7): the best-effort per-term
aggregation policy in which a failed term "is treated as empty for that
term" and the kept records appear in term order, then within-term response
order.  Written from the words of the spec for comparison with
`dictList`. -/
def specBestEffortAggregate (fetch : String → Option (List Record))
    (usernames terms : List String) : List Record :=
  (terms.map (fun t =>
    ((fetch t).getD []).filter (fun r => usernames.contains r.username))).flatten

/-- Sample record used to instantiate theorems on concrete inputs. -/
def recA : Record :=
  { id := "1", name := "alpha", username := "Alice", status := "vip",
    size := 100, added := 10, seeders := 5, info_hash := "ha", code := none }

/-- Sample record used to instantiate theorems on concrete inputs. -/
def recB : Record :=
  { id := "2", name := "beta", username := "Bob", status := "vip",
    size := 200, added := 20, seeders := 6, info_hash := "hb", code := none }

/-- Sample record used to instantiate theorems on concrete inputs. -/
def recC : Record :=
  { id := "3", name := "gamma", username := "Alice", status := "trusted",
    size := 300, added := 30, seeders := 7, info_hash := "hc", code := none }

/-- A fetch whose first term fails and whose second term succeeds,
exercising the per-term failure path. -/
def cexFetch : String → Option (List Record) :=
  fun t => if t = "t1" then none else some [recB]

/-- A fetch returning one fixed response with a Bob record before an
Alice record, exercising the aggregation order. -/
def cexFetchOrder : String → Option (List Record) :=
  fun _ => some [recB, recC]

/-- An enrichment source that succeeds on record id "1" and fails on
every other id. -/
def cexEnrich : String → Option String :=
  fun i => if i = "1" then some "see http remainder" else none

/-! Helper development: the dedup loop rephrased with an explicit set of
already-seen elements, and its basic properties. -/

/-- Proof-internal rephrasing of `dedupLoop`: the part of the output
appended after the accumulator, where `seen` plays the role of the
elements already in the output. -/
def dedupPass {α : Type} [DecidableEq α] (seen : List α) : List α → List α
  | [] => []
  | x :: xs =>
    if x ∈ seen then dedupPass seen xs else x :: dedupPass (seen ++ [x]) xs

theorem dedupLoop_eq_append {α : Type} [DecidableEq α] (l : List α) :
    ∀ acc : List α, dedupLoop acc l = acc ++ dedupPass acc l := by
  induction l with
  | nil => intro acc; simp [dedupLoop, dedupPass]
  | cons x xs ih =>
    intro acc
    by_cases hx : x ∈ acc
    · simp [dedupLoop, dedupPass, hx, ih]
    · simp [dedupLoop, dedupPass, hx, ih, List.append_assoc]

theorem pythonDedup_eq_dedupPass {α : Type} [DecidableEq α] (l : List α) :
    pythonDedup l = dedupPass [] l := by
  simp [pythonDedup, dedupLoop_eq_append]

theorem dedupPass_nodup_and_notmem {α : Type} [DecidableEq α] (l : List α) :
    ∀ seen : List α,
      (dedupPass seen l).Nodup ∧ ∀ x ∈ dedupPass seen l, x ∉ seen := by
  induction l with
  | nil => intro seen; simp [dedupPass]
  | cons x xs ih =>
    intro seen
    by_cases hx : x ∈ seen
    · simpa [dedupPass, hx] using ih seen
    · have h := ih (seen ++ [x])
      have hd : dedupPass seen (x :: xs) = x :: dedupPass (seen ++ [x]) xs := by
        simp [dedupPass, hx]
      rw [hd]
      refine ⟨?_, ?_⟩
      · rw [List.nodup_cons]
        refine ⟨fun hmem => ?_, h.1⟩
        have := h.2 x hmem
        simp at this
      · intro y hy
        rcases List.mem_cons.mp hy with rfl | hy
        · exact hx
        · have := h.2 y hy
          intro hys
          exact this (List.mem_append_left _ hys)

theorem dedupPass_sublist {α : Type} [DecidableEq α] (l : List α) :
    ∀ seen : List α, (dedupPass seen l).Sublist l := by
  induction l with
  | nil => intro seen; simp [dedupPass]
  | cons x xs ih =>
    intro seen
    by_cases hx : x ∈ seen
    · simpa [dedupPass, hx] using (ih seen).cons x
    · simpa [dedupPass, hx] using (ih (seen ++ [x])).cons₂ x

theorem mem_dedupPass_of_mem {α : Type} [DecidableEq α] {x : α} (l : List α) :
    ∀ seen : List α, x ∈ l → x ∈ seen ∨ x ∈ dedupPass seen l := by
  induction l with
  | nil => intro seen h; simp at h
  | cons y ys ih =>
    intro seen hmem
    by_cases hy : y ∈ seen
    · rcases List.mem_cons.mp hmem with rfl | hmem
      · exact Or.inl hy
      · simpa [dedupPass, hy] using ih seen hmem
    · rcases List.mem_cons.mp hmem with rfl | hmem
      · simp [dedupPass, hy]
      · rcases ih (seen ++ [y]) hmem with h | h
        · rcases List.mem_append.mp h with h | h
          · exact Or.inl h
          · simp at h
            subst h
            simp [dedupPass, hy]
        · simp [dedupPass, hy, h]

theorem dedupPass_eq_self {α : Type} [DecidableEq α] (l : List α) :
    ∀ seen : List α, l.Nodup → (∀ x ∈ l, x ∉ seen) → dedupPass seen l = l := by
  induction l with
  | nil => intro seen _ _; simp [dedupPass]
  | cons x xs ih =>
    intro seen hnd hdis
    have hx : x ∉ seen := hdis x (List.mem_cons_self x xs)
    simp only [dedupPass, hx, if_neg]
    simp only [List.nodup_cons] at hnd
    refine congrArg (x :: ·) (ih (seen ++ [x]) hnd.2 ?_)
    intro y hy
    intro hmem
    rcases List.mem_append.mp hmem with h | h
    · exact hdis y (List.mem_cons_of_mem x hy) h
    · simp at h
      subst h
      exact hnd.1 hy

theorem dedupPass_drop_mem {α : Type} [DecidableEq α] {x : α} (pre : List α) :
    ∀ (seen post : List α), x ∈ seen ∨ x ∈ pre →
      dedupPass seen (pre ++ x :: post) = dedupPass seen (pre ++ post) := by
  induction pre with
  | nil =>
    intro seen post h
    have hx : x ∈ seen := by simpa using h
    simp [dedupPass, hx]
  | cons a pre ih =>
    intro seen post h
    by_cases ha : a ∈ seen
    · have h' : x ∈ seen ∨ x ∈ pre := by
        rcases h with h | h
        · exact Or.inl h
        · rcases List.mem_cons.mp h with rfl | h
          · exact Or.inl ha
          · exact Or.inr h
      simp [dedupPass, ha, ih seen post h']
    · have h' : x ∈ seen ++ [a] ∨ x ∈ pre := by
        rcases h with h | h
        · exact Or.inl (List.mem_append_left _ h)
        · rcases List.mem_cons.mp h with rfl | h
          · exact Or.inl (by simp)
          · exact Or.inr h
      simp [dedupPass, ha, ih (seen ++ [a]) post h']

theorem dedupPass_drop_seg {α : Type} [DecidableEq α] (s : List α) :
    ∀ (seen pre post : List α), (∀ y ∈ s, y ∈ seen ∨ y ∈ pre) →
      dedupPass seen (pre ++ s ++ post) = dedupPass seen (pre ++ post) := by
  induction s with
  | nil => intro seen pre post _; simp
  | cons y s ih =>
    intro seen pre post h
    have h1 : dedupPass seen (pre ++ y :: (s ++ post))
        = dedupPass seen (pre ++ (s ++ post)) :=
      dedupPass_drop_mem pre seen (s ++ post) (h y (List.mem_cons_self y s))
    have h2 := ih seen pre post (fun z hz => h z (List.mem_cons_of_mem y hz))
    calc dedupPass seen (pre ++ (y :: s) ++ post)
        = dedupPass seen (pre ++ y :: (s ++ post)) := by
          simp [List.append_assoc]
      _ = dedupPass seen (pre ++ (s ++ post)) := h1
      _ = dedupPass seen (pre ++ post) := by
          simpa [List.append_assoc] using h2

/-! Helper development: the query aggregation. -/

theorem flatten_filter_nonempty {α : Type} (bs : List (List α)) :
    (bs.filter (fun b => !b.isEmpty)).flatten = bs.flatten := by
  induction bs with
  | nil => simp
  | cons b bs ih =>
    by_cases hb : b.isEmpty
    · have hbe : b = [] := List.isEmpty_iff.mp hb
      simp [List.filter_cons, hbe, ih]
    · simp [List.filter_cons, hb, ih]

theorem flatten_map_flatten {α β : Type} (f : α → List (List β)) (l : List α) :
    ((l.map f).flatten).flatten = (l.map (fun a => (f a).flatten)).flatten := by
  induction l with
  | nil => simp
  | cons a l ih => simp [ih]

theorem combinedDataList_isSome (fetch : String → Option (List Record))
    (usernames : List String) :
    ∀ terms : List String,
      (combinedDataList fetch usernames terms).isSome
        ↔ ∀ t ∈ terms, (fetch t).isSome := by
  intro terms
  induction terms with
  | nil => simp [combinedDataList]
  | cons t ts ih =>
    cases hf : fetch t with
    | none => simp [combinedDataList, hf]
    | some data => simp [combinedDataList, hf, ih]

theorem combinedDataList_ok (fetch : String → Option (List Record))
    (usernames : List String) :
    ∀ terms : List String, (∀ t ∈ terms, (fetch t).isSome) →
      combinedDataList fetch usernames terms
        = some ((terms.map
            (fun t => userBlocks ((fetch t).getD []) usernames)).flatten) := by
  intro terms
  induction terms with
  | nil => intro _; simp [combinedDataList]
  | cons t ts ih =>
    intro h
    obtain ⟨data, hf⟩ := Option.isSome_iff_exists.mp (h t (List.mem_cons_self t ts))
    have hrest := ih (fun s hs => h s (List.mem_cons_of_mem t hs))
    simp [combinedDataList, hf, hrest]

theorem dictList_ok (fetch : String → Option (List Record))
    (usernames terms : List String) (h : ∀ t ∈ terms, (fetch t).isSome) :
    dictList fetch usernames terms
      = some ((terms.map (fun t =>
          (userBlocks ((fetch t).getD []) usernames).flatten)).flatten) := by
  rw [dictList, combinedDataList_ok fetch usernames terms h]
  simp [flatten_filter_nonempty, flatten_map_flatten]

theorem blocks_sound (fetch : String → Option (List Record))
    (usernames : List String) :
    ∀ (terms : List String) (bs : List (List Record)),
      combinedDataList fetch usernames terms = some bs →
      ∀ b ∈ bs, ∃ u ∈ usernames, ∃ t ∈ terms, ∃ data,
        fetch t = some data ∧ b = data.filter (fun r => r.username == u) := by
  intro terms
  induction terms with
  | nil =>
    intro bs h b hb
    simp [combinedDataList] at h
    subst h
    simp at hb
  | cons t ts ih =>
    intro bs h b hb
    cases hf : fetch t with
    | none => simp [combinedDataList, hf] at h
    | some data =>
      rw [combinedDataList, hf] at h
      cases hrec : combinedDataList fetch usernames ts with
      | none => rw [hrec] at h; simp at h
      | some rest =>
        rw [hrec] at h
        simp at h
        subst h
        rcases List.mem_append.mp hb with hb | hb
        · rcases List.mem_map.mp hb with ⟨u, hu, rfl⟩
          exact ⟨u, hu, t, List.mem_cons_self t ts, data, hf, rfl⟩
        · rcases ih rest hrec b hb with ⟨u, hu, s, hs, data2, hf2, hb2⟩
          exact ⟨u, hu, s, List.mem_cons_of_mem t hs, data2, hf2, hb2⟩

/-! The claims. -/

/-- C7: the Deduplicator (lines 139-140 of `search`) removes exact
structural duplicates while preserving first-seen order: its output has no
duplicates, is a sublist of the input (so the surviving records keep their
relative input order), retains every input record, equals the input
whenever the input already had no duplicates, and running it on its own
output changes nothing (idempotence). -/
theorem c7_dedup_first_seen_idempotent (l : List Record) :
    (pythonDedup l).Nodup
    ∧ (pythonDedup l).Sublist l
    ∧ (∀ x ∈ l, x ∈ pythonDedup l)
    ∧ (l.Nodup → pythonDedup l = l)
    ∧ pythonDedup (pythonDedup l) = pythonDedup l := by
  have hbase := dedupPass_nodup_and_notmem l ([] : List Record)
  rw [pythonDedup_eq_dedupPass]
  refine ⟨hbase.1, dedupPass_sublist l [], ?_, ?_, ?_⟩
  · intro x hx
    rcases mem_dedupPass_of_mem l [] hx with h | h
    · simp at h
    · exact h
  · intro hnd
    exact dedupPass_eq_self l [] hnd (by simp)
  · rw [pythonDedup_eq_dedupPass]
    exact dedupPass_eq_self _ [] hbase.1 (by simp)

/-- C7 witness: the dedup theorem applied to a concrete duplicate-free
list. -/
theorem c7_witness : pythonDedup [recA, recB] = [recA, recB] :=
  (c7_dedup_first_seen_idempotent [recA, recB]).2.2.2.1 (by decide)

/-- C6: every record in the aggregated working list (`dict_list`, lines
117-130 of `search`) has a `username` equal to one of the supplied
uploader identities, because only the per-identity filtered blocks are
accumulated. -/
theorem c6_username_in_identity_set (fetch : String → Option (List Record))
    (usernames terms : List String) (l : List Record)
    (h : dictList fetch usernames terms = some l) :
    ∀ r ∈ l, r.username ∈ usernames := by
  intro r hr
  rw [dictList] at h
  cases hc : combinedDataList fetch usernames terms with
  | none => rw [hc] at h; simp at h
  | some bs =>
    rw [hc] at h
    simp at h
    subst h
    rw [flatten_filter_nonempty] at hr
    rcases List.mem_flatten.mp hr with ⟨b, hb, hrb⟩
    rcases blocks_sound fetch usernames terms bs hc b hb with
      ⟨u, hu, t, _, data, _, rfl⟩
    have hru : r.username = u := by
      have := (List.mem_filter.mp hrb).2
      simpa using this
    rw [hru]
    exact hu

/-- C6 witness: the username theorem applied to a concrete aggregation. -/
theorem c6_witness : recC.username ∈ ["Alice", "Bob"] :=
  c6_username_in_identity_set cexFetchOrder ["Alice", "Bob"] ["t"] [recC, recB]
    (by decide) recC (by decide)

/-- C1: when every liveness attempt fails (four failures exhaust the
retry budget of lines 145-164), the phase hands `sorter` the
deduplicated pre-verification list unchanged, marked as unfiltered for the
caller, and every record still has `code` unset (the failed attempts never
reach the `code`-writing loop of `check_urls`). -/
theorem c1_liveness_fallback_unfiltered (fetch : String → Option (List Record))
    (usernames terms : List String) (uniqueList : List Record)
    (rest : List Attempt)
    (hfetch : ∀ t data, fetch t = some data → ∀ r ∈ data, r.code = none)
    (hu : uniqueListOf fetch usernames terms = some uniqueList) :
    livenessPhase uniqueList
        (Attempt.fail :: Attempt.fail :: Attempt.fail :: Attempt.fail :: rest)
      = some (LivenessResult.unfiltered uniqueList)
    ∧ ∀ r ∈ uniqueList, r.code = none := by
  refine ⟨rfl, ?_⟩
  intro r hr
  rw [uniqueListOf] at hu
  cases hd : dictList fetch usernames terms with
  | none => rw [hd] at hu; simp at hu
  | some l =>
    rw [hd] at hu
    simp at hu
    subst hu
    have hrl : r ∈ l := by
      rw [pythonDedup_eq_dedupPass] at hr
      exact (dedupPass_sublist l []).subset hr
    rw [dictList] at hd
    cases hc : combinedDataList fetch usernames terms with
    | none => rw [hc] at hd; simp at hd
    | some bs =>
      rw [hc] at hd
      simp at hd
      subst hd
      rw [flatten_filter_nonempty] at hrl
      rcases List.mem_flatten.mp hrl with ⟨b, hb, hrb⟩
      rcases blocks_sound fetch usernames terms bs hc b hb with
        ⟨u, _, t, _, data, hf, rfl⟩
      exact hfetch t data hf r (List.mem_filter.mp hrb).1

/-- C1 witness: the fallback theorem applied to a concrete pipeline run
with four failed attempts. -/
theorem c1_witness :
    livenessPhase [recC, recB]
        (Attempt.fail :: Attempt.fail :: Attempt.fail :: Attempt.fail :: [])
      = some (LivenessResult.unfiltered [recC, recB])
    ∧ ∀ r ∈ [recC, recB], r.code = none :=
  c1_liveness_fallback_unfiltered cexFetchOrder ["Alice", "Bob"] ["t"]
    [recC, recB] []
    (fun t data hdata => by
      simp [cexFetchOrder] at hdata
      subst hdata
      decide)
    (by decide)

/-- Index-wise description of `setCodes`: position `i` of the updated
list is record `i` of the input annotated with code `i` of the gathered
status list. -/
theorem setCodes_getElem? (l : List Record) :
    ∀ (codes : List Nat) (i : Nat), i < l.length → codes.length = l.length →
      ∃ r c, l[i]? = some r ∧ codes[i]? = some c
        ∧ (setCodes l codes)[i]? = some { r with code := some c } := by
  induction l with
  | nil => intro codes i hi _; simp at hi
  | cons r l ih =>
    intro codes i hi hlen
    cases codes with
    | nil => simp at hlen
    | cons c cs =>
      cases i with
      | zero => refine ⟨r, c, ?_, ?_, ?_⟩ <;> simp [setCodes]
      | succ j =>
        have hj : j < l.length := Nat.lt_of_succ_lt_succ hi
        have hl : cs.length = l.length := by
          simpa using hlen
        simpa [setCodes] using ih cs j hj hl

/-- C2: a successful liveness attempt assigns each record its own probe
status positionally (`asyncio.gather` keeps task order), hands `sorter`
exactly the records whose `code` is not 404, keeps them in their original
relative order (the filtered list is a sublist of the annotated list), and
on a 3-record batch with statuses 404, 200, 500 exactly the 200 and 500
records survive. -/
theorem c2_liveness_success_filters_404 (uniqueList : List Record)
    (codes : List Nat) (hlen : codes.length = uniqueList.length) :
    livenessPhase uniqueList [Attempt.ok codes]
        = some (LivenessResult.filtered
            ((setCodes uniqueList codes).filter (fun r => r.code != some 404)))
    ∧ (∀ i, i < uniqueList.length →
        ∃ r c, uniqueList[i]? = some r ∧ codes[i]? = some c
          ∧ (setCodes uniqueList codes)[i]? = some { r with code := some c })
    ∧ ((setCodes uniqueList codes).filter (fun r => r.code != some 404)).Sublist
        (setCodes uniqueList codes)
    ∧ ∀ r1 r2 r3 : Record,
        livenessPhase [r1, r2, r3] [Attempt.ok [404, 200, 500]]
          = some (LivenessResult.filtered
              [{ r2 with code := some 200 }, { r3 with code := some 500 }]) := by
  refine ⟨rfl, ?_, List.filter_sublist _, ?_⟩
  · intro i hi
    exact setCodes_getElem? uniqueList codes i hi hlen
  · intro r1 r2 r3
    rfl

/-- C2 witness: the success theorem applied to a concrete 3-record
batch. -/
theorem c2_witness :
    livenessPhase [recA, recB, recC] [Attempt.ok [404, 200, 500]]
      = some (LivenessResult.filtered
          ((setCodes [recA, recB, recC] [404, 200, 500]).filter
            (fun r => r.code != some 404))) :=
  (c2_liveness_success_filters_404 [recA, recB, recC] [404, 200, 500] rfl).1

/-- C3 counterexample: with a fetch that fails on the first of two terms,
the aggregation of `search` (lines 117-130) produces no record list at all
(the exception propagates), while the best-effort policy described by the
spec would still deliver the record of the surviving second term. -/
theorem c3_cex_per_term_failure_aborts :
    dictList cexFetch ["Bob"] ["t1", "t2"] = none
    ∧ specBestEffortAggregate cexFetch ["Bob"] ["t1", "t2"] = [recB] := by
  refine ⟨by decide, by decide⟩

/-- C3 (amended): a network or JSON-parse failure of the remote query for
any one term aborts the whole query phase — no later term is aggregated
and no record list is produced, because lines 120-121 are not wrapped in
any exception handler. -/
theorem c3_amended_one_failure_aborts_all (fetch : String → Option (List Record))
    (usernames pre post : List String) (t : String) (h : fetch t = none) :
    dictList fetch usernames (pre ++ t :: post) = none := by
  rw [dictList]
  suffices hs : combinedDataList fetch usernames (pre ++ t :: post) = none by
    rw [hs]; rfl
  induction pre with
  | nil => simp [combinedDataList, h]
  | cons a pre ih =>
    cases hf : fetch a with
    | none => simp [combinedDataList, hf]
    | some data => simp [combinedDataList, hf, ih]

/-- C3 witness: the amended theorem applied to the concrete two-term
fetch whose first term fails. -/
theorem c3_witness : dictList cexFetch ["Bob"] ([] ++ "t1" :: ["t2"]) = none :=
  c3_amended_one_failure_aborts_all cexFetch ["Bob"] [] ["t2"] "t1" (by decide)

/-- C4 counterexample: with an enrichment source that succeeds on the
first displayed record and fails on the second, the display loop of
`printer` (lines 237-259) raises and aborts: no record list is displayed,
while the claim requires the remaining records to still be displayed. -/
theorem c4_cex_enrichment_failure_aborts :
    printerDisplay cexEnrich [recA, recB] = Except.error () := by
  rfl

/-- Failure propagation through the display loop: if every record before
`r` enriches successfully, `r` sits below the enrichment cap, and the
enrichment of `r` fails, the whole loop aborts with the propagating
exception. -/
theorem displayLoop_error_of_enrich_none (enrich : String → Option String)
    (r : Record) (post : List Record) (hr : enrich r.id = none) :
    ∀ (pre : List Record) (idx : Nat),
      idx + pre.length < MAX_RESULTS_WITH_LINKS →
      (∀ x ∈ pre, (enrich x.id).isSome) →
      displayLoop enrich idx (pre ++ r :: post) = Except.error () := by
  intro pre
  induction pre with
  | nil =>
    intro idx hidx _
    have h0 : idx < MAX_RESULTS_WITH_LINKS := by simpa using hidx
    simp [displayLoop, h0, hr]
  | cons x pre ih =>
    intro idx hidx hpre
    have h0 : idx < MAX_RESULTS_WITH_LINKS := by
      simp [List.length_cons] at hidx
      omega
    obtain ⟨d, hd⟩ :=
      Option.isSome_iff_exists.mp (hpre x (List.mem_cons_self x pre))
    have hrec := ih (idx + 1)
      (by simp [List.length_cons] at hidx ⊢; omega)
      (fun y hy => hpre y (List.mem_cons_of_mem x hy))
    simp [displayLoop, h0, hd, hrec]

/-- C4 (amended): a failure of the enrichment fetch for one displayed
record within the first `MAX_RESULTS_WITH_LINKS` records aborts the
display of all remaining records — the exception propagates out of the
display loop of `printer` (and, because `printer` is reached inside the
`try` of the liveness retry loop, on into that failure handler). -/
theorem c4_amended_enrichment_failure_aborts (enrich : String → Option String)
    (pre post : List Record) (r : Record)
    (hlen : pre.length < MAX_RESULTS_WITH_LINKS)
    (hpre : ∀ x ∈ pre, (enrich x.id).isSome)
    (hr : enrich r.id = none) :
    printerDisplay enrich (pre ++ r :: post) = Except.error () :=
  displayLoop_error_of_enrich_none enrich r post hr pre 0 (by simpa using hlen)
    hpre

/-- C4 witness: the amended theorem applied to the concrete two-record
display whose second record fails to enrich. -/
theorem c4_witness : printerDisplay cexEnrich ([recA] ++ recB :: []) = Except.error () :=
  c4_amended_enrichment_failure_aborts cexEnrich [recA] [] recB (by decide)
    (by decide) (by decide)

/-- C5 counterexample: with one term whose response lists the Bob record
before the Alice record and identities supplied as Alice then Bob, the
accumulated list of `search` is Alice-then-Bob (identity-major order), not
the within-term response order the claim states. -/
theorem c5_cex_not_response_order :
    dictList cexFetchOrder ["Alice", "Bob"] ["t"] = some [recC, recB]
    ∧ specBestEffortAggregate cexFetchOrder ["Alice", "Bob"] ["t"] = [recB, recC]
    ∧ ([recC, recB] : List Record) ≠ [recB, recC] := by
  refine ⟨by decide, by decide, by decide⟩

/-- C5 (amended): the accumulated working list is ordered by search-term
order, then by supplied-identity order within each term, and by
within-term response order only inside each (term, identity) block —
the identity loop of lines 124-126 nests inside the term loop. -/
theorem c5_amended_term_identity_response_order
    (fetch : String → Option (List Record)) (usernames terms : List String)
    (h : ∀ t ∈ terms, (fetch t).isSome) :
    dictList fetch usernames terms
      = some ((terms.map (fun t =>
          (usernames.map (fun u =>
            ((fetch t).getD []).filter (fun r => r.username == u))).flatten)).flatten) := by
  rw [dictList_ok fetch usernames terms h]
  rfl

/-- C5 witness: the amended ordering theorem applied to the concrete
one-term, two-identity aggregation. -/
theorem c5_witness :
    dictList cexFetchOrder ["Alice", "Bob"] ["t"]
      = some (((["t"] : List String).map (fun t =>
          ((["Alice", "Bob"] : List String).map (fun u =>
            ((cexFetchOrder t).getD []).filter (fun r => r.username == u))).flatten)).flatten) :=
  c5_amended_term_identity_response_order cexFetchOrder ["Alice", "Bob"] ["t"]
    (by decide)

/-- C9: the probe URL built by `get_tasks` (line 78) for a concrete record
id carries a trailing newline character, so it is not the exact
`<site-url>/torrent/<id>` path the spec requires for compatibility with
the remote service. -/
theorem c9_probe_url_has_trailing_newline :
    probeUrl "https://thepiratebay.org" "123"
        = "https://thepiratebay.org/torrent/123\n"
    ∧ probeUrl "https://thepiratebay.org" "123"
        ≠ specProbeUrl "https://thepiratebay.org" "123" := by
  refine ⟨rfl, by decide⟩

/-! Helper development: the stable sort model. -/

theorem stableSortBy_cons {α : Type} (lt : α → α → Bool) (a : α) (l : List α) :
    stableSortBy lt (a :: l) = insSorted lt a (stableSortBy lt l) := rfl

theorem insSorted_perm {α : Type} (lt : α → α → Bool) (a : α) (l : List α) :
    (insSorted lt a l).Perm (a :: l) := by
  induction l with
  | nil => exact List.Perm.refl _
  | cons b l ih =>
    by_cases h : lt b a = true
    · have hd : insSorted lt a (b :: l) = b :: insSorted lt a l := by
        simp [insSorted, h]
      rw [hd]
      exact (ih.cons b).trans (List.Perm.swap a b l)
    · have hd : insSorted lt a (b :: l) = a :: b :: l := by
        simp [insSorted, h]
      rw [hd]

theorem stableSortBy_perm {α : Type} (lt : α → α → Bool) (l : List α) :
    (stableSortBy lt l).Perm l := by
  induction l with
  | nil => exact List.Perm.refl _
  | cons a l ih =>
    rw [stableSortBy_cons]
    exact (insSorted_perm lt a (stableSortBy lt l)).trans (ih.cons a)

theorem filter_insSorted_neg {α : Type} (lt : α → α → Bool) (p : α → Bool)
    (a : α) (hpa : p a = false) (l : List α) :
    (insSorted lt a l).filter p = l.filter p := by
  induction l with
  | nil => simp [insSorted, hpa]
  | cons b l ih =>
    by_cases h : lt b a = true
    · have hd : insSorted lt a (b :: l) = b :: insSorted lt a l := by
        simp [insSorted, h]
      rw [hd, List.filter_cons, List.filter_cons, ih]
    · have hd : insSorted lt a (b :: l) = a :: b :: l := by
        simp [insSorted, h]
      rw [hd, List.filter_cons_of_neg (by simp [hpa])]

theorem filter_insSorted_pos {α : Type} (lt : α → α → Bool) (p : α → Bool)
    (a : α) (hpa : p a = true) (l : List α)
    (hcomp : ∀ b, lt b a = true → p b = false) :
    (insSorted lt a l).filter p = a :: l.filter p := by
  induction l with
  | nil => simp [insSorted, hpa]
  | cons b l ih =>
    by_cases h : lt b a = true
    · have hpb : p b = false := hcomp b h
      have hd : insSorted lt a (b :: l) = b :: insSorted lt a l := by
        simp [insSorted, h]
      rw [hd, List.filter_cons_of_neg (by simp [hpb]), ih,
        List.filter_cons_of_neg (by simp [hpb])]
    · have hd : insSorted lt a (b :: l) = a :: b :: l := by
        simp [insSorted, h]
      rw [hd, List.filter_cons_of_pos (by simp [hpa])]

theorem filter_stableSortBy {α : Type} (lt : α → α → Bool) (p : α → Bool)
    (hcomp : ∀ a b, p a = true → p b = true → lt b a = false) (l : List α) :
    (stableSortBy lt l).filter p = l.filter p := by
  induction l with
  | nil => rfl
  | cons a l ih =>
    rw [stableSortBy_cons]
    by_cases hpa : p a = true
    · have hstep := filter_insSorted_pos lt p a hpa (stableSortBy lt l)
        (fun b hb => by
          by_cases hpb : p b = true
          · exact absurd hb (by simp [hcomp a b hpa hpb])
          · simpa using hpb)
      rw [hstep, ih, List.filter_cons_of_pos (by simp [hpa])]
    · have hpa' : p a = false := by simpa using hpa
      rw [filter_insSorted_neg lt p a hpa' (stableSortBy lt l), ih,
        List.filter_cons_of_neg (by simp [hpa'])]

theorem insSorted_pairwise {α : Type} (lt : α → α → Bool)
    (hasymm : ∀ x y, lt x y = true → lt y x = false)
    (htrans : ∀ x y z, lt x y = false → lt y z = false → lt x z = false)
    (a : α) (l : List α)
    (h : l.Pairwise (fun x y => lt y x = false)) :
    (insSorted lt a l).Pairwise (fun x y => lt y x = false) := by
  induction l with
  | nil => simp [insSorted]
  | cons b l ih =>
    rcases List.pairwise_cons.mp h with ⟨hb, hl⟩
    by_cases hba : lt b a = true
    · have hd : insSorted lt a (b :: l) = b :: insSorted lt a l := by
        simp [insSorted, hba]
      rw [hd]
      refine List.pairwise_cons.mpr ⟨?_, ih hl⟩
      intro y hy
      have hy' : y ∈ a :: l := (insSorted_perm lt a l).mem_iff.mp hy
      rcases List.mem_cons.mp hy' with rfl | hy'
      · exact hasymm b y hba
      · exact hb y hy'
    · have hba' : lt b a = false := by simpa using hba
      have hd : insSorted lt a (b :: l) = a :: b :: l := by
        simp [insSorted, hba]
      rw [hd]
      refine List.pairwise_cons.mpr ⟨?_, h⟩
      intro y hy
      rcases List.mem_cons.mp hy with rfl | hy
      · exact hba'
      · exact htrans y b a (hb y hy) hba'

theorem stableSortBy_pairwise {α : Type} (lt : α → α → Bool)
    (hasymm : ∀ x y, lt x y = true → lt y x = false)
    (htrans : ∀ x y z, lt x y = false → lt y z = false → lt x z = false)
    (l : List α) :
    (stableSortBy lt l).Pairwise (fun x y => lt y x = false) := by
  induction l with
  | nil => simp [stableSortBy]
  | cons a l ih =>
    rw [stableSortBy_cons]
    exact insSorted_pairwise lt hasymm htrans a (stableSortBy lt l) ih

/-- C8: each non-random sort of `sorter` (lines 194-213) is stable with
respect to input order for equal-key records — filtering the sorted output
by any key value reproduces the same subsequence as filtering the input —
and when no two records share the same `added` value, the newest-sorted
output reversed equals the oldest-sorted output. -/
theorem c8_sorts_stable_and_reverse_dual (l : List Record) :
    (∀ v : Int, (sortNewest l).filter (fun r => r.added == v)
        = l.filter (fun r => r.added == v))
    ∧ (∀ v : Int, (sortOldest l).filter (fun r => r.added == v)
        = l.filter (fun r => r.added == v))
    ∧ (∀ v : Int, (sortMostSeeded l).filter (fun r => r.seeders == v)
        = l.filter (fun r => r.seeders == v))
    ∧ (∀ v : Int, (sortLargest l).filter (fun r => r.size == v)
        = l.filter (fun r => r.size == v))
    ∧ (∀ v : Int, (sortSmallest l).filter (fun r => r.size == v)
        = l.filter (fun r => r.size == v))
    ∧ ((l.map Record.added).Nodup → (sortNewest l).reverse = sortOldest l) := by
  refine ⟨?_, ?_, ?_, ?_, ?_, ?_⟩
  · intro v
    refine filter_stableSortBy _ _ (fun a b hpa hpb => ?_) l
    have ha : a.added = v := by simpa using hpa
    have hb : b.added = v := by simpa using hpb
    simp [ha, hb]
  · intro v
    refine filter_stableSortBy _ _ (fun a b hpa hpb => ?_) l
    have ha : a.added = v := by simpa using hpa
    have hb : b.added = v := by simpa using hpb
    simp [ha, hb]
  · intro v
    refine filter_stableSortBy _ _ (fun a b hpa hpb => ?_) l
    have ha : a.seeders = v := by simpa using hpa
    have hb : b.seeders = v := by simpa using hpb
    simp [ha, hb]
  · intro v
    refine filter_stableSortBy _ _ (fun a b hpa hpb => ?_) l
    have ha : a.size = v := by simpa using hpa
    have hb : b.size = v := by simpa using hpb
    simp [ha, hb]
  · intro v
    refine filter_stableSortBy _ _ (fun a b hpa hpb => ?_) l
    have ha : a.size = v := by simpa using hpa
    have hb : b.size = v := by simpa using hpb
    simp [ha, hb]
  · intro hnd
    have hne : l.Pairwise (fun x y : Record => x.added ≠ y.added) := by
      rw [List.Nodup, List.pairwise_map] at hnd
      exact hnd
    have hsymm : ∀ {x y : Record}, x.added ≠ y.added → y.added ≠ x.added :=
      fun h => h.symm
    have hsorted₁ : (sortNewest l).Pairwise
        (fun x y : Record => decide (x.added < y.added) = false) :=
      stableSortBy_pairwise _
        (fun x y h => by simp at h ⊢; omega)
        (fun x y z h1 h2 => by simp at h1 h2 ⊢; omega) l
    have hne₁ : (sortNewest l).Pairwise (fun x y : Record => x.added ≠ y.added) :=
      ((stableSortBy_perm _ l).pairwise_iff (fun h => hsymm h)).mpr hne
    have hstrict₁ : (sortNewest l).Pairwise
        (fun x y : Record => y.added < x.added) := by
      refine (hsorted₁.and hne₁).imp (fun h => ?_)
      rcases h with ⟨h1, h2⟩
      simp at h1
      omega
    have hrev : (sortNewest l).reverse.Pairwise
        (fun x y : Record => x.added < y.added) :=
      List.pairwise_reverse.mpr hstrict₁
    have hsorted₂ : (sortOldest l).Pairwise
        (fun x y : Record => decide (y.added < x.added) = false) :=
      stableSortBy_pairwise _
        (fun x y h => by simp at h ⊢; omega)
        (fun x y z h1 h2 => by simp at h1 h2 ⊢; omega) l
    have hne₂ : (sortOldest l).Pairwise (fun x y : Record => x.added ≠ y.added) :=
      ((stableSortBy_perm _ l).pairwise_iff (fun h => hsymm h)).mpr hne
    have hstrict₂ : (sortOldest l).Pairwise
        (fun x y : Record => x.added < y.added) := by
      refine (hsorted₂.and hne₂).imp (fun h => ?_)
      rcases h with ⟨h1, h2⟩
      simp at h1
      omega
    have hperm : ((sortNewest l).reverse).Perm (sortOldest l) :=
      ((sortNewest l).reverse_perm.trans (stableSortBy_perm _ l)).trans
        (stableSortBy_perm _ l).symm
    haveI : IsAntisymm Record (fun x y : Record => x.added < y.added) :=
      ⟨fun a b h1 h2 => False.elim (by omega)⟩
    exact List.eq_of_perm_of_sorted hperm hrev hstrict₂

/-- C8 witness: stability and the newest/oldest duality on a concrete
two-record list with distinct timestamps. -/
theorem c8_witness :
    (sortNewest [recA, recB]).filter (fun r => r.added == (10 : Int))
        = [recA, recB].filter (fun r => r.added == (10 : Int))
    ∧ (sortNewest [recA, recB]).reverse = sortOldest [recA, recB] :=
  ⟨(c8_sorts_stable_and_reverse_dual [recA, recB]).1 10,
   (c8_sorts_stable_and_reverse_dual [recA, recB]).2.2.2.2.2 (by decide)⟩

/-! Helper development: duplicate identities and the dedup of the
aggregated list. -/

theorem dedup_agg_drop_user (dataOf : String → List Record) (u : String)
    (p q : List String) (hu : u ∈ p) :
    ∀ (ts : List String) (seen C : List Record),
      dedupPass seen (C ++ (ts.map (fun t =>
          (userBlocks (dataOf t) (p ++ u :: q)).flatten)).flatten)
        = dedupPass seen (C ++ (ts.map (fun t =>
            (userBlocks (dataOf t) (p ++ q)).flatten)).flatten) := by
  intro ts
  induction ts with
  | nil => intro seen C; rfl
  | cons t ts ih =>
    intro seen C
    have hcond : ∀ y ∈ (dataOf t).filter (fun r => r.username == u),
        y ∈ seen ∨ y ∈ C ++ (userBlocks (dataOf t) p).flatten := by
      intro y hy
      right
      refine List.mem_append_right C ?_
      exact List.mem_flatten.mpr
        ⟨(dataOf t).filter (fun r => r.username == u),
         List.mem_map.mpr ⟨u, hu, rfl⟩, hy⟩
    have step1 := dedupPass_drop_seg
      ((dataOf t).filter (fun r => r.username == u)) seen
      (C ++ (userBlocks (dataOf t) p).flatten)
      ((userBlocks (dataOf t) q).flatten
        ++ (ts.map (fun s => (userBlocks (dataOf s) (p ++ u :: q)).flatten)).flatten)
      hcond
    have step2 := ih seen
      (C ++ (userBlocks (dataOf t) p).flatten ++ (userBlocks (dataOf t) q).flatten)
    calc
      dedupPass seen (C ++ (List.map (fun s =>
            (userBlocks (dataOf s) (p ++ u :: q)).flatten) (t :: ts)).flatten)
          = dedupPass seen
            ((C ++ (userBlocks (dataOf t) p).flatten)
              ++ (dataOf t).filter (fun r => r.username == u)
              ++ ((userBlocks (dataOf t) q).flatten
                ++ (ts.map (fun s =>
                  (userBlocks (dataOf s) (p ++ u :: q)).flatten)).flatten)) := by
            simp [userBlocks, List.append_assoc]
      _ = dedupPass seen
            ((C ++ (userBlocks (dataOf t) p).flatten)
              ++ ((userBlocks (dataOf t) q).flatten
                ++ (ts.map (fun s =>
                  (userBlocks (dataOf s) (p ++ u :: q)).flatten)).flatten)) := step1
      _ = dedupPass seen
            ((C ++ (userBlocks (dataOf t) p).flatten
                ++ (userBlocks (dataOf t) q).flatten)
              ++ (ts.map (fun s =>
                (userBlocks (dataOf s) (p ++ u :: q)).flatten)).flatten) := by
            simp [List.append_assoc]
      _ = dedupPass seen
            ((C ++ (userBlocks (dataOf t) p).flatten
                ++ (userBlocks (dataOf t) q).flatten)
              ++ (ts.map (fun s =>
                (userBlocks (dataOf s) (p ++ q)).flatten)).flatten) := step2
      _ = dedupPass seen (C ++ (List.map (fun s =>
            (userBlocks (dataOf s) (p ++ q)).flatten) (t :: ts)).flatten) := by
            simp [userBlocks, List.append_assoc]

theorem dedup_agg_dedup_users (dataOf : String → List Record)
    (terms : List String) :
    ∀ (us p : List String),
      pythonDedup ((terms.map (fun t =>
          (userBlocks (dataOf t) (p ++ us)).flatten)).flatten)
        = pythonDedup ((terms.map (fun t =>
            (userBlocks (dataOf t) (p ++ dedupPass p us)).flatten)).flatten) := by
  intro us
  induction us with
  | nil => intro p; rfl
  | cons x xs ih =>
    intro p
    by_cases hx : x ∈ p
    · have hd : dedupPass p (x :: xs) = dedupPass p xs := by
        simp [dedupPass, hx]
      rw [hd]
      have h1 : pythonDedup ((terms.map (fun t =>
            (userBlocks (dataOf t) (p ++ x :: xs)).flatten)).flatten)
          = pythonDedup ((terms.map (fun t =>
              (userBlocks (dataOf t) (p ++ xs)).flatten)).flatten) := by
        rw [pythonDedup_eq_dedupPass, pythonDedup_eq_dedupPass]
        have := dedup_agg_drop_user dataOf x p xs hx terms [] []
        simpa using this
      rw [h1, ih p]
    · have hd : dedupPass p (x :: xs) = x :: dedupPass (p ++ [x]) xs := by
        simp [dedupPass, hx]
      rw [hd]
      have e1 : p ++ x :: xs = (p ++ [x]) ++ xs := by simp
      have e2 : p ++ x :: dedupPass (p ++ [x]) xs
          = (p ++ [x]) ++ dedupPass (p ++ [x]) xs := by simp
      rw [e1, e2]
      exact ih (p ++ [x])

/-- C10: aggregating with a duplicated identity list appends the matching
blocks once per duplicate, but the Deduplicator removes those extra
copies: the deduplicated working list entering the liveness check is the
same as the one obtained from the identity list with its duplicates
removed. -/
theorem c10_duplicate_identities_collapse (fetch : String → Option (List Record))
    (usernames terms : List String) :
    uniqueListOf fetch usernames terms
      = uniqueListOf fetch (pythonDedup usernames) terms := by
  by_cases hall : ∀ t ∈ terms, (fetch t).isSome
  · rw [uniqueListOf, uniqueListOf, dictList_ok fetch usernames terms hall,
      dictList_ok fetch (pythonDedup usernames) terms hall]
    simp only [Option.map_some']
    congr 1
    have h := dedup_agg_dedup_users (fun t => (fetch t).getD []) terms usernames []
    simp only [List.nil_append] at h
    rw [← pythonDedup_eq_dedupPass] at h
    exact h
  · have h1 : combinedDataList fetch usernames terms = none := by
      rcases hc : combinedDataList fetch usernames terms with _ | bs
      · rfl
      · exact absurd ((combinedDataList_isSome fetch usernames terms).mp
          (by rw [hc]; rfl)) hall
    have h2 : combinedDataList fetch (pythonDedup usernames) terms = none := by
      rcases hc : combinedDataList fetch (pythonDedup usernames) terms with _ | bs
      · rfl
      · exact absurd ((combinedDataList_isSome fetch (pythonDedup usernames)
          terms).mp (by rw [hc]; rfl)) hall
    rw [uniqueListOf, uniqueListOf, dictList, dictList, h1, h2]

end PirateSearch
